import Mathlib

set_option maxRecDepth 8000

/-!
Verification of the numeric pooling core of `metapool/metapool.py`
(repository `metagenomics_pooling_notebook`).

Numbers are modelled by `MFloat`: IEEE-754 double values idealised to exact
rational arithmetic (`ℚ`) together with the special values `nan`, `+inf` and
`-inf`.  The special-value behaviour of the operations the code uses
(addition, multiplication, division, ordering tests) follows IEEE semantics
as implemented by numpy: `nan` absorbs through arithmetic, every ordering
test involving `nan` is false, a nonzero finite value divided by zero gives
a signed infinity, and `0 * inf = 0 / 0 = inf - inf = nan`.  Rounding of
finite values is idealised away (exact rationals), which is the reading
under which the specification's "within floating tolerance" statements
become exact statements.

Matrices (numpy 2-D arrays) are lists of rows; all the modelled operations
are element-wise, reductions over all entries, or row-major traversals,
exactly as in the source.
-/

inductive MFloat where
  | nan
  | pinf
  | ninf
  | fin (q : ℚ)
  deriving DecidableEq

/-- IEEE addition on the modelled values. -/
def MFloat.add : MFloat → MFloat → MFloat
  | .nan, _ => .nan
  | _, .nan => .nan
  | .pinf, .ninf => .nan
  | .ninf, .pinf => .nan
  | .pinf, _ => .pinf
  | _, .pinf => .pinf
  | .ninf, _ => .ninf
  | _, .ninf => .ninf
  | .fin a, .fin b => .fin (a + b)

/-- IEEE multiplication on the modelled values. -/
def MFloat.mul : MFloat → MFloat → MFloat
  | .nan, _ => .nan
  | _, .nan => .nan
  | .pinf, .pinf => .pinf
  | .pinf, .ninf => .ninf
  | .ninf, .pinf => .ninf
  | .ninf, .ninf => .pinf
  | .pinf, .fin b => if 0 < b then .pinf else if b < 0 then .ninf else .nan
  | .fin a, .pinf => if 0 < a then .pinf else if a < 0 then .ninf else .nan
  | .ninf, .fin b => if 0 < b then .ninf else if b < 0 then .pinf else .nan
  | .fin a, .ninf => if 0 < a then .ninf else if a < 0 then .pinf else .nan
  | .fin a, .fin b => .fin (a * b)

/-- IEEE division on the modelled values (`x/0` is a signed infinity for
`x ≠ 0` and `nan` for `x = 0`, as numpy computes for a `+0.0` divisor). -/
def MFloat.div : MFloat → MFloat → MFloat
  | .nan, _ => .nan
  | _, .nan => .nan
  | .pinf, .pinf => .nan
  | .pinf, .ninf => .nan
  | .ninf, .pinf => .nan
  | .ninf, .ninf => .nan
  | .pinf, .fin b => if 0 ≤ b then .pinf else .ninf
  | .ninf, .fin b => if 0 ≤ b then .ninf else .pinf
  | .fin _, .pinf => .fin 0
  | .fin _, .ninf => .fin 0
  | .fin a, .fin b =>
    if b = 0 then (if 0 < a then .pinf else if a < 0 then .ninf else .nan)
    else .fin (a / b)

/-- IEEE strict comparison: every comparison involving `nan` is false. -/
def MFloat.ltb : MFloat → MFloat → Bool
  | .nan, _ => false
  | _, .nan => false
  | .ninf, .ninf => false
  | _, .ninf => false
  | .ninf, _ => true
  | .pinf, _ => false
  | _, .pinf => true
  | .fin a, .fin b => decide (a < b)

/-- IEEE non-strict comparison: every comparison involving `nan` is false. -/
def MFloat.leb : MFloat → MFloat → Bool
  | .nan, _ => false
  | _, .nan => false
  | .ninf, _ => true
  | _, .ninf => false
  | _, .pinf => true
  | .pinf, _ => false
  | .fin a, .fin b => decide (a ≤ b)

/-- A numpy 2-D array: a list of rows. -/
abbrev Mat := List (List MFloat)

/-- `array.size`: the total number of entries. -/
def msize (m : Mat) : Nat := (m.map List.length).sum

/-- An element-wise unary operation (numpy broadcasting of a scalar op). -/
def mmap (f : MFloat → MFloat) (m : Mat) : Mat := m.map (List.map f)

/-- An element-wise binary operation on same-shaped arrays. -/
def mzip (f : MFloat → MFloat → MFloat) (a b : Mat) : Mat :=
  List.zipWith (List.zipWith f) a b

/-- `array.sum()`: reduction of all entries with IEEE addition. -/
def msum (m : Mat) : MFloat := m.flatten.foldl MFloat.add (MFloat.fin 0)

/-- `np.ones(sample_concs.shape) / sample_concs.size`, the default value of
`sample_fracs` in `compute_shotgun_pooling_values_qpcr`. -/
def defaultFracs (sample_concs : Mat) : Mat :=
  mmap (fun _ => MFloat.div (MFloat.fin 1) (MFloat.fin (msize sample_concs : ℚ)))
    sample_concs

/-- `sample_fracs_pass = sample_fracs.copy();
sample_fracs_pass[sample_concs <= min_conc] = 0` -/
def passFracs (sample_concs sample_fracs : Mat) (min_conc : MFloat) : Mat :=
  mzip (fun c f => if MFloat.leb c min_conc then MFloat.fin 0 else f)
    sample_concs sample_fracs

/-- `sample_concs_floor = sample_concs.copy();
sample_concs_floor[sample_concs < floor_conc] = floor_conc` -/
def floorConcs (sample_concs : Mat) (floor_conc : MFloat) : Mat :=
  mmap (fun c => if MFloat.ltb c floor_conc then floor_conc else c) sample_concs

/-- `compute_shotgun_pooling_values_qpcr(sample_concs, sample_fracs=None,
min_conc=10, floor_conc=50, total_nmol=.01)` from `metapool/metapool.py`.
The source defaults are passed explicitly by the theorems below
(`none`, `fin 10`, `fin 50`, `fin (1/100)`). -/
def compute_shotgun_pooling_values_qpcr (sample_concs : Mat)
    (sample_fracs : Option Mat) (min_conc floor_conc total_nmol : MFloat) : Mat :=
  let fracs := match sample_fracs with
    | none => defaultFracs sample_concs
    | some f => f
  let sample_fracs_pass := passFracs sample_concs fracs min_conc
  let inv := MFloat.div (MFloat.fin 1) (msum sample_fracs_pass)
  let sample_fracs_norm := mmap (fun f => MFloat.mul f inv) sample_fracs_pass
  let sample_concs_floor := floorConcs sample_concs floor_conc
  let sample_vols := mzip (fun f c => MFloat.div (MFloat.mul total_nmol f) c)
    sample_fracs_norm sample_concs_floor
  mmap (fun v => MFloat.mul v (MFloat.fin (10 ^ 9))) sample_vols

/-- `compute_shotgun_pooling_values_eqvol(sample_concs, total_vol=60.0)`
from `metapool/metapool.py`:
`per_sample_vol = (total_vol / sample_concs.size) * 1000.0;
sample_vols = np.zeros(sample_concs.shape) + per_sample_vol`. -/
def compute_shotgun_pooling_values_eqvol (sample_concs : Mat)
    (total_vol : MFloat) : Mat :=
  let per_sample_vol :=
    MFloat.mul (MFloat.div total_vol (MFloat.fin (msize sample_concs : ℚ)))
      (MFloat.fin 1000)
  mmap (fun _ => MFloat.add (MFloat.fin 0) per_sample_vol) sample_concs

/-- `estimate_pool_conc_vol(sample_vols, sample_concs)` from
`metapool/metapool.py`. -/
def estimate_pool_conc_vol (sample_vols sample_concs : Mat) :
    MFloat × MFloat :=
  let nl_scalar := MFloat.fin (1 / 10 ^ 9)
  let total_pmols :=
    mmap (fun x => MFloat.mul x nl_scalar) (mzip MFloat.mul sample_concs sample_vols)
  let total_vol := msum sample_vols
  let pool_conc := MFloat.div (msum total_pmols) (MFloat.mul total_vol nl_scalar)
  (pool_conc, total_vol)

/-- Round to the nearest integer, ties to even, as IEEE formatting does. -/
def roundHalfEven (x : ℚ) : ℤ :=
  let f := ⌊x⌋
  let r := x - f
  if r < 1 / 2 then f
  else if 1 / 2 < r then f + 1
  else if f % 2 = 0 then f else f + 1

/-- Two decimal digits, zero padded. -/
def natPad2 (n : Nat) : String :=
  if n < 10 then "0" ++ toString n else toString n

/-- `"%.2f"` of a nonnegative rational. -/
def fmt2abs (q : ℚ) : String :=
  let m := (roundHalfEven (q * 100)).toNat
  toString (m / 100) ++ "." ++ natPad2 (m % 100)

/-- Python `"%.2f" % x`: renders `nan` as `"nan"`, infinities as
`"inf"`/`"-inf"`, finite values with two decimals. -/
def MFloat.fmt2 : MFloat → String
  | .nan => "nan"
  | .pinf => "inf"
  | .ninf => "-inf"
  | .fin q => if q < 0 then "-" ++ fmt2abs (-q) else fmt2abs q

/-- `chr(ord('A') + i)` as a one-character string. -/
def rowChar (i : Nat) : String := String.mk [Char.ofNat (65 + i)]

/-- The destination well label from `format_pooling_echo_pick_list`:
`"%s%d" % (chr(ord('A') + int(np.floor(d/dest_plate_shape[0]))),
(d % dest_plate_shape[1]))`. -/
def destName (d shape0 shape1 : Nat) : String :=
  rowChar (d / shape0) ++ toString (d % shape1)

/-- The state threaded through the well iteration of
`format_pooling_echo_pick_list`: `running_tot` and `d`. -/
structure EchoState where
  running_tot : MFloat
  d : Nat
  deriving DecidableEq

/-- One well of the loop body: if `running_tot + vol > max_vol_per_well`
then `d += 1; running_tot = vol` else `running_tot += vol`. -/
def echoStep (max_vol_per_well : MFloat) (st : EchoState) (v : MFloat) :
    EchoState :=
  if MFloat.ltb max_vol_per_well (MFloat.add st.running_tot v) then
    EchoState.mk v (st.d + 1)
  else
    EchoState.mk (MFloat.add st.running_tot v) st.d

/-- The loop of `format_pooling_echo_pick_list` over the row-major list of
(source well name, volume) pairs, emitting one picklist line per well.  The
destination label is computed from the state after the update, as in the
source. -/
def echoLines (max_vol_per_well : MFloat) (shape0 shape1 : Nat) :
    EchoState → List (String × MFloat) → List String
  | _, [] => []
  | st, (w, v) :: rest =>
    let st2 := echoStep max_vol_per_well st v
    ("1,384LDV_AQ_B2_HT," ++ w ++ ",," ++ MFloat.fmt2 v ++ ",NormalizedDNA,"
        ++ destName st2.d shape0 shape1)
      :: echoLines max_vol_per_well shape0 shape1 st2 rest

/-- The row-major enumeration of wells: well `(i, j)` is named
`"%s%d" % (chr(ord('A') + i), j+1)`. -/
def wellEntries (m : Mat) : List (String × MFloat) :=
  (m.enum.map (fun p =>
    p.2.enum.map (fun q => (rowChar p.1 ++ toString (q.1 + 1), q.2)))).flatten

/-- `format_pooling_echo_pick_list(vol_sample, max_vol_per_well=60000,
dest_plate_shape=[16,24])` from `metapool/metapool.py`: the header line
followed by one line per well, with `running_tot = 0` and `d = 1`
initially. -/
def format_pooling_echo_pick_list (vol_sample : Mat)
    (max_vol_per_well : MFloat) (dest_plate_shape : Nat × Nat) : String :=
  String.intercalate "\n"
    (("Source Plate Name,Source Plate Type,Source Well,Concentration,"
        ++ "Transfer Volume,Destination Plate Name,Destination Well")
      :: echoLines max_vol_per_well dest_plate_shape.1 dest_plate_shape.2
          (EchoState.mk (MFloat.fin 0) 1) (wellEntries vol_sample))

/-- A matrix of finite (non-`nan`, non-infinite) values. -/
def finM (X : List (List ℚ)) : Mat := X.map (List.map MFloat.fin)

/-- The rational-valued effect of the threshold mask on one entry:
fraction `w` survives iff the concentration is above `min_conc`. -/
def passQ (mc w c : ℚ) : ℚ := if c ≤ mc then 0 else w

/-- The rational-valued effect of the floor clamp on one entry. -/
def floorQ (fc c : ℚ) : ℚ := if c < fc then fc else c

/-- The sum of the masked default (uniform) fractions of a finite-valued
concentration matrix. -/
def psum (X : List (List ℚ)) (mc : ℚ) : ℚ :=
  (X.flatten.map (passQ mc (1 / (X.flatten.length : ℚ)))).sum

/-- The per-well volume (in nL) allocated by
`compute_shotgun_pooling_values_qpcr` with default fractions, as a rational
function of the well's concentration. -/
def volQ (X : List (List ℚ)) (mc fc t c : ℚ) : ℚ :=
  t * (passQ mc (1 / (X.flatten.length : ℚ)) c * (1 / psum X mc)) / floorQ fc c
    * 10 ^ 9

/-- The sum of all entries of a rational matrix. -/
def qtot (vq : List (List ℚ)) : ℚ := vq.flatten.sum

/-- The sum of the element-wise products of two rational matrices. -/
def qdot (cq vq : List (List ℚ)) : ℚ :=
  ((List.zipWith (List.zipWith (fun a b => a * b)) cq vq).flatten).sum

/-! ### Helper lemmas about the embedding -/

theorem add_fin (a b : ℚ) : MFloat.add (.fin a) (.fin b) = .fin (a + b) := rfl

theorem mul_fin (a b : ℚ) : MFloat.mul (.fin a) (.fin b) = .fin (a * b) := rfl

theorem div_fin (a : ℚ) {b : ℚ} (hb : b ≠ 0) :
    MFloat.div (.fin a) (.fin b) = .fin (a / b) := by
  simp [MFloat.div, hb]

theorem mul_nan_right (x : MFloat) : MFloat.mul x .nan = .nan := by
  cases x <;> rfl

theorem div_nan_left (y : MFloat) : MFloat.div .nan y = .nan := by
  cases y <;> rfl

theorem mul_nan_left (y : MFloat) : MFloat.mul .nan y = .nan := by
  cases y <;> rfl

theorem pass_fin (mc w c : ℚ) :
    (if MFloat.leb (.fin c) (.fin mc) then MFloat.fin 0 else MFloat.fin w)
      = .fin (passQ mc w c) := by
  by_cases h : c ≤ mc <;> simp [MFloat.leb, passQ, h]

theorem floor_fin (fc c : ℚ) :
    (if MFloat.ltb (.fin c) (.fin fc) then MFloat.fin fc else MFloat.fin c)
      = .fin (floorQ fc c) := by
  by_cases h : c < fc <;> simp [MFloat.ltb, floorQ, h]

theorem floorQ_pos {fc : ℚ} (hfc : 0 < fc) (c : ℚ) : 0 < floorQ fc c := by
  unfold floorQ
  by_cases h : c < fc
  · rw [if_pos h]; exact hfc
  · rw [if_neg h]; exact lt_of_lt_of_le hfc (not_lt.mp h)

theorem passQ_nonneg {mc w : ℚ} (hw : 0 ≤ w) (c : ℚ) : 0 ≤ passQ mc w c := by
  unfold passQ
  by_cases h : c ≤ mc <;> simp [h, hw]

theorem zipWith_map_same {α β γ δ : Type} (g : β → γ → δ) (u : α → β)
    (v : α → γ) (l : List α) :
    List.zipWith g (l.map u) (l.map v) = l.map (fun x => g (u x) (v x)) := by
  induction l with
  | nil => rfl
  | cons a t ih => simp [ih]

theorem mzip_mapmap {α : Type} (g : MFloat → MFloat → MFloat)
    (u v : α → MFloat) (L : List (List α)) :
    mzip g (L.map (List.map u)) (L.map (List.map v))
      = L.map (List.map (fun x => g (u x) (v x))) := by
  simp [mzip, zipWith_map_same]

theorem mmap_mapmap {α : Type} (f : MFloat → MFloat) (u : α → MFloat)
    (L : List (List α)) :
    mmap f (L.map (List.map u)) = L.map (List.map (fun x => f (u x))) := by
  unfold mmap
  rw [List.map_map]
  exact List.map_congr_left (fun r _ => by simp [List.map_map])

theorem mapmap_congr {α β : Type} {L : List (List α)} {f g : α → β}
    (h : ∀ x ∈ L.flatten, f x = g x) :
    L.map (List.map f) = L.map (List.map g) := by
  induction L with
  | nil => rfl
  | cons r t ih =>
    simp only [List.flatten_cons, List.mem_append] at h
    simp only [List.map_cons, List.cons.injEq]
    constructor
    · exact List.map_congr_left (fun x hx => h x (Or.inl hx))
    · exact ih (fun x hx => h x (Or.inr hx))

theorem flatten_mapmap {α β : Type} (f : α → β) (L : List (List α)) :
    (L.map (List.map f)).flatten = L.flatten.map f := by
  induction L with
  | nil => rfl
  | cons r t ih =>
    simp only [List.map_cons, List.flatten_cons, List.map_append, ih]

theorem foldl_add_fin (l : List ℚ) (a : ℚ) :
    (l.map MFloat.fin).foldl MFloat.add (MFloat.fin a) = MFloat.fin (a + l.sum) := by
  induction l generalizing a with
  | nil => simp
  | cons x t ih => simp [ih, add_fin, add_assoc]

theorem msum_finM (X : List (List ℚ)) : msum (finM X) = .fin X.flatten.sum := by
  unfold msum finM
  rw [flatten_mapmap, foldl_add_fin, zero_add]

theorem msize_finM (X : List (List ℚ)) : msize (finM X) = X.flatten.length := by
  unfold msize finM
  rw [List.length_flatten, List.map_map]
  congr 1
  exact List.map_congr_left (fun r _ => by simp)

theorem sum_map_zero {α : Type} (l : List α) :
    (l.map (fun _ => (0 : ℚ))).sum = 0 := by
  induction l with
  | nil => rfl
  | cons x t ih => simp [ih]

theorem sum_map_mul_left' {α : Type} (l : List α) (k : ℚ) (g : α → ℚ) :
    (l.map (fun x => k * g x)).sum = k * (l.map g).sum := by
  induction l with
  | nil => simp
  | cons x t ih => simp [ih, mul_add]

theorem sum_map_mul_right' {α : Type} (l : List α) (k : ℚ) (g : α → ℚ) :
    (l.map (fun x => g x * k)).sum = (l.map g).sum * k := by
  induction l with
  | nil => simp
  | cons x t ih => simp [ih, add_mul]

theorem map_congr_mem {α β : Type} {l : List α} {f g : α → β}
    (h : ∀ x ∈ l, f x = g x) : l.map f = l.map g :=
  List.map_congr_left h

theorem finM_mapmap (g : ℚ → ℚ) (X : List (List ℚ)) :
    finM (X.map (List.map g)) = X.map (List.map (fun c => MFloat.fin (g c))) := by
  unfold finM
  rw [List.map_map]
  exact map_congr_mem (fun r _ => by
    simp only [Function.comp_apply, List.map_map]
    rfl)

theorem psum_pos {X : List (List ℚ)} {mc : ℚ}
    (hpass : ∃ c ∈ X.flatten, mc < c) : 0 < psum X mc := by
  obtain ⟨c0, hc0, hmc⟩ := hpass
  have hne : X.flatten ≠ [] := List.ne_nil_of_mem hc0
  have hN : 0 < (X.flatten.length : ℚ) := by
    exact_mod_cast List.length_pos.mpr hne
  have hw : 0 < 1 / (X.flatten.length : ℚ) := by positivity
  have hmem : passQ mc (1 / (X.flatten.length : ℚ)) c0
      ∈ X.flatten.map (passQ mc (1 / (X.flatten.length : ℚ))) :=
    List.mem_map_of_mem _ hc0
  have hval : passQ mc (1 / (X.flatten.length : ℚ)) c0
      = 1 / (X.flatten.length : ℚ) := by
    unfold passQ
    rw [if_neg (not_le.mpr hmc)]
  have hnn : ∀ x ∈ X.flatten.map (passQ mc (1 / (X.flatten.length : ℚ))),
      0 ≤ x := by
    intro x hx
    obtain ⟨c, _, rfl⟩ := List.mem_map.mp hx
    exact passQ_nonneg (le_of_lt hw) c
  calc (0 : ℚ) < 1 / (X.flatten.length : ℚ) := hw
    _ = passQ mc (1 / (X.flatten.length : ℚ)) c0 := hval.symm
    _ ≤ psum X mc := List.single_le_sum hnn _ hmem

theorem computeQ_eq (X : List (List ℚ)) (mc fc t : ℚ) (hfc : 0 < fc)
    (hpass : ∃ c ∈ X.flatten, mc < c) :
    compute_shotgun_pooling_values_qpcr (finM X) none
        (.fin mc) (.fin fc) (.fin t)
      = finM (X.map (List.map (volQ X mc fc t))) := by
  have hne : X.flatten ≠ [] := by
    obtain ⟨c0, hc0, _⟩ := hpass
    exact List.ne_nil_of_mem hc0
  have hNQ : ((X.flatten.length : ℚ)) ≠ 0 := by
    have := List.length_pos.mpr hne
    positivity
  have hs : 0 < psum X mc := psum_pos hpass
  have e1 : defaultFracs (finM X)
      = X.map (List.map (fun _ : ℚ =>
          MFloat.fin (1 / (X.flatten.length : ℚ)))) := by
    unfold defaultFracs
    rw [msize_finM]
    have hdiv : MFloat.div (.fin 1) (.fin (X.flatten.length : ℚ))
        = .fin (1 / (X.flatten.length : ℚ)) := div_fin 1 hNQ
    show mmap _ (X.map (List.map MFloat.fin)) = _
    rw [mmap_mapmap]
    simp only [hdiv]
  have epass : passFracs (finM X) (defaultFracs (finM X)) (.fin mc)
      = X.map (List.map (fun c =>
          MFloat.fin (passQ mc (1 / (X.flatten.length : ℚ)) c))) := by
    rw [e1]
    unfold passFracs
    show mzip _ (X.map (List.map MFloat.fin)) _ = _
    rw [mzip_mapmap]
    simp only [pass_fin]
  have esum : msum (passFracs (finM X) (defaultFracs (finM X)) (.fin mc))
      = .fin (psum X mc) := by
    rw [epass, ← finM_mapmap, msum_finM, flatten_mapmap]
    rfl
  have efloor : floorConcs (finM X) (.fin fc)
      = X.map (List.map (fun c => MFloat.fin (floorQ fc c))) := by
    unfold floorConcs
    show mmap _ (X.map (List.map MFloat.fin)) = _
    rw [mmap_mapmap]
    simp only [floor_fin]
  have enorm : mmap (fun f => MFloat.mul f (MFloat.div (MFloat.fin 1)
        (MFloat.fin (psum X mc))))
      (X.map (List.map (fun c =>
        MFloat.fin (passQ mc (1 / (X.flatten.length : ℚ)) c))))
      = X.map (List.map (fun c =>
          MFloat.fin (passQ mc (1 / (X.flatten.length : ℚ)) c
            * (1 / psum X mc)))) := by
    have hdiv : MFloat.div (MFloat.fin 1) (MFloat.fin (psum X mc))
        = .fin (1 / psum X mc) := div_fin 1 hs.ne'
    simp only [hdiv]
    rw [mmap_mapmap]
    simp only [mul_fin]
  have evols : mzip (fun f c => MFloat.div (MFloat.mul (MFloat.fin t) f) c)
      (X.map (List.map (fun c =>
        MFloat.fin (passQ mc (1 / (X.flatten.length : ℚ)) c
          * (1 / psum X mc)))))
      (X.map (List.map (fun c => MFloat.fin (floorQ fc c))))
      = X.map (List.map (fun c => MFloat.fin
          (t * (passQ mc (1 / (X.flatten.length : ℚ)) c * (1 / psum X mc))
            / floorQ fc c))) := by
    rw [mzip_mapmap]
    apply mapmap_congr
    intro c _
    rw [mul_fin, div_fin _ (floorQ_pos hfc c).ne']
  have efinal : mmap (fun v => MFloat.mul v (MFloat.fin (10 ^ 9)))
      (X.map (List.map (fun c => MFloat.fin
        (t * (passQ mc (1 / (X.flatten.length : ℚ)) c * (1 / psum X mc))
          / floorQ fc c))))
      = finM (X.map (List.map (volQ X mc fc t))) := by
    rw [mmap_mapmap, finM_mapmap]
    apply mapmap_congr
    intro c _
    rw [mul_fin]
    rfl
  show mmap (fun v => MFloat.mul v (MFloat.fin (10 ^ 9)))
      (mzip (fun f c => MFloat.div (MFloat.mul (MFloat.fin t) f) c)
        (mmap (fun f => MFloat.mul f (MFloat.div (MFloat.fin 1)
            (msum (passFracs (finM X) (defaultFracs (finM X)) (MFloat.fin mc)))))
          (passFracs (finM X) (defaultFracs (finM X)) (MFloat.fin mc)))
        (floorConcs (finM X) (MFloat.fin fc)))
      = finM (X.map (List.map (volQ X mc fc t)))
  rw [esum, epass, efloor, enorm, evols, efinal]

theorem floorConcs_finM (X : List (List ℚ)) (fc : ℚ) :
    floorConcs (finM X) (.fin fc)
      = X.map (List.map (fun c => MFloat.fin (floorQ fc c))) := by
  unfold floorConcs
  show mmap _ (X.map (List.map MFloat.fin)) = _
  rw [mmap_mapmap]
  simp only [floor_fin]

theorem mem_zipWith' {α β γ : Type} (f : α → β → γ) :
    ∀ (as : List α) (bs : List β) (x : γ), x ∈ List.zipWith f as bs →
      ∃ a ∈ as, ∃ b ∈ bs, x = f a b := by
  intro as
  induction as with
  | nil =>
    intro bs x h
    simp at h
  | cons a as ih =>
    intro bs x h
    cases bs with
    | nil => simp at h
    | cons b bs =>
      rw [List.zipWith_cons_cons, List.mem_cons] at h
      rcases h with h | h
      · exact ⟨a, List.mem_cons_self a as, b, List.mem_cons_self b bs, h⟩
      · obtain ⟨a2, ha, b2, hb, hx⟩ := ih bs x h
        exact ⟨a2, List.mem_cons_of_mem _ ha, b2, List.mem_cons_of_mem _ hb, hx⟩

theorem mem_mzip_flatten {g : MFloat → MFloat → MFloat} {A B : Mat} {x : MFloat}
    (hx : x ∈ (mzip g A B).flatten) :
    ∃ a ∈ A.flatten, ∃ b ∈ B.flatten, x = g a b := by
  unfold mzip at hx
  rw [List.mem_flatten] at hx
  obtain ⟨row, hrow, hxr⟩ := hx
  obtain ⟨ra, hra, rb, hrb, hreq⟩ := mem_zipWith' _ A B row hrow
  subst hreq
  obtain ⟨a, ha, b, hb, hxab⟩ := mem_zipWith' g ra rb x hxr
  exact ⟨a, List.mem_flatten.mpr ⟨ra, hra, ha⟩,
    b, List.mem_flatten.mpr ⟨rb, hrb, hb⟩, hxab⟩

theorem mem_mmap_flatten {f : MFloat → MFloat} {M : Mat} {x : MFloat}
    (hx : x ∈ (mmap f M).flatten) : ∃ y ∈ M.flatten, x = f y := by
  unfold mmap at hx
  rw [flatten_mapmap] at hx
  obtain ⟨y, hy, h⟩ := List.mem_map.mp hx
  exact ⟨y, hy, h.symm⟩

theorem foldl_add_zn :
    ∀ (l : List MFloat), (∀ x ∈ l, x = MFloat.fin 0 ∨ x = MFloat.nan) →
      ∀ a, (a = MFloat.fin 0 ∨ a = MFloat.nan) →
        (l.foldl MFloat.add a = MFloat.fin 0 ∨ l.foldl MFloat.add a = MFloat.nan) := by
  intro l
  induction l with
  | nil =>
    intro _ a ha
    simpa using ha
  | cons x t ih =>
    intro h a ha
    have hx := h x (List.mem_cons_self x t)
    have hstep : MFloat.add a x = MFloat.fin 0 ∨ MFloat.add a x = MFloat.nan := by
      rcases ha with rfl | rfl <;> rcases hx with rfl | rfl
      · left
        rw [add_fin]
        norm_num
      · right
        rfl
      · right
        rfl
      · right
        rfl
    simp only [List.foldl_cons]
    exact ih (fun y hy => h y (List.mem_cons_of_mem _ hy)) _ hstep

theorem zipWith_fin_row (F : MFloat → MFloat → MFloat) (f : ℚ → ℚ → ℚ)
    (hF : ∀ a b, F (.fin a) (.fin b) = .fin (f a b)) :
    ∀ (a b : List ℚ), List.zipWith F (a.map MFloat.fin) (b.map MFloat.fin)
      = (List.zipWith f a b).map MFloat.fin := by
  intro a
  induction a with
  | nil =>
    intro b
    rfl
  | cons x t ih =>
    intro b
    cases b with
    | nil => rfl
    | cons y s => simp only [List.map_cons, List.zipWith_cons_cons, hF, ih]

theorem mzip_finM (F : MFloat → MFloat → MFloat) (f : ℚ → ℚ → ℚ)
    (hF : ∀ a b, F (.fin a) (.fin b) = .fin (f a b)) (A B : List (List ℚ)) :
    mzip F (finM A) (finM B) = finM (List.zipWith (List.zipWith f) A B) := by
  unfold mzip finM
  induction A generalizing B with
  | nil => rfl
  | cons r t ih =>
    cases B with
    | nil => rfl
    | cons w s =>
      simp only [List.map_cons, List.zipWith_cons_cons, zipWith_fin_row F f hF, ih]

theorem sum_map_mul_k (l : List ℚ) (k : ℚ) :
    (l.map (fun x => x * k)).sum = l.sum * k := by
  induction l with
  | nil => simp
  | cons x t ih => simp [ih, add_mul]

theorem estimate_finM (vq cq : List (List ℚ)) (hv : vq.flatten.sum ≠ 0) :
    estimate_pool_conc_vol (finM vq) (finM cq)
      = (MFloat.fin (qdot cq vq / qtot vq), MFloat.fin (qtot vq)) := by
  have hzip : mzip MFloat.mul (finM cq) (finM vq)
      = finM (List.zipWith (List.zipWith (fun a b => a * b)) cq vq) :=
    mzip_finM MFloat.mul (fun a b => a * b) (fun a b => mul_fin a b) cq vq
  have hscale : mmap (fun x => MFloat.mul x (MFloat.fin (1 / 10 ^ 9)))
      (finM (List.zipWith (List.zipWith (fun a b => a * b)) cq vq))
      = finM ((List.zipWith (List.zipWith (fun a b => a * b)) cq vq).map
          (List.map (fun a => a * (1 / 10 ^ 9)))) := by
    rw [finM_mapmap]
    show mmap _ (List.map (List.map MFloat.fin) _) = _
    rw [mmap_mapmap]
    apply mapmap_congr
    intro c _
    rw [mul_fin]
  show (MFloat.div
      (msum (mmap (fun x => MFloat.mul x (MFloat.fin (1 / 10 ^ 9)))
        (mzip MFloat.mul (finM cq) (finM vq))))
      (MFloat.mul (msum (finM vq)) (MFloat.fin (1 / 10 ^ 9))),
      msum (finM vq))
    = (MFloat.fin (qdot cq vq / qtot vq), MFloat.fin (qtot vq))
  rw [hzip, hscale, msum_finM, msum_finM, flatten_mapmap, sum_map_mul_k, mul_fin]
  have hk : (1 : ℚ) / 10 ^ 9 ≠ 0 := by norm_num
  have hSk : vq.flatten.sum * (1 / 10 ^ 9) ≠ 0 := mul_ne_zero hv hk
  rw [div_fin _ hSk]
  have hq : (List.zipWith (List.zipWith (fun a b => a * b)) cq vq).flatten.sum
        * (1 / 10 ^ 9) / (vq.flatten.sum * (1 / 10 ^ 9))
      = qdot cq vq / qtot vq := by
    unfold qdot qtot
    rw [mul_div_mul_right _ _ hk]
  rw [hq]
  rfl

/-! ### The claims -/

/-- Claim C1: on the concentration matrix [[1,12,400],[200,40,1]] with the
default parameters (uniform sample fractions, min_conc = 10, floor_conc = 50,
total_nmol = 0.01), `compute_shotgun_pooling_values_qpcr` returns exactly the
volume matrix [[0,50000,6250],[12500,50000,0]] nanoliters: wells at or below
min_conc get fraction 0 and volume 0, the excluded fractions are renormalized
over the passing wells, and passing wells below floor_conc are dosed as if at
floor_conc. -/
theorem claim_C1 :
    compute_shotgun_pooling_values_qpcr
      [[MFloat.fin 1, MFloat.fin 12, MFloat.fin 400],
       [MFloat.fin 200, MFloat.fin 40, MFloat.fin 1]]
      none (MFloat.fin 10) (MFloat.fin 50) (MFloat.fin (1 / 100))
    = [[MFloat.fin 0, MFloat.fin 50000, MFloat.fin 6250],
       [MFloat.fin 12500, MFloat.fin 50000, MFloat.fin 0]] := by
  norm_num [compute_shotgun_pooling_values_qpcr, defaultFracs, passFracs,
    floorConcs, mmap, mzip, msum, msize, MFloat.add, MFloat.mul, MFloat.div,
    MFloat.leb, MFloat.ltb]

/-- Claim C2, evaluated on the code at the failing input: on volumes
[10,10,NaN,5,10,10] with max_vol_per_well = 26 the source renders the NaN
transfer volume as "nan" (not "0.00"), and because `running_tot` becomes NaN
after absorbing it (and every comparison with NaN is false) the loop never
rolls over again, so all six destination wells are A1 — not
[A1,A1,A1,A1,A2,A2] as the claim and the repository's own test
`test_format_pooling_echo_pick_list_nan` require. -/
theorem claim_C2_code_eval :
    format_pooling_echo_pick_list
      [[MFloat.fin 10, MFloat.fin 10, MFloat.nan, MFloat.fin 5, MFloat.fin 10,
        MFloat.fin 10]] (MFloat.fin 26) (16, 24)
    = "Source Plate Name,Source Plate Type,Source Well,Concentration,Transfer Volume,Destination Plate Name,Destination Well\n1,384LDV_AQ_B2_HT,A1,,10.00,NormalizedDNA,A1\n1,384LDV_AQ_B2_HT,A2,,10.00,NormalizedDNA,A1\n1,384LDV_AQ_B2_HT,A3,,nan,NormalizedDNA,A1\n1,384LDV_AQ_B2_HT,A4,,5.00,NormalizedDNA,A1\n1,384LDV_AQ_B2_HT,A5,,10.00,NormalizedDNA,A1\n1,384LDV_AQ_B2_HT,A6,,10.00,NormalizedDNA,A1"
    ∧ ("1,384LDV_AQ_B2_HT,A3,,nan,NormalizedDNA,A1" : String)
        ≠ "1,384LDV_AQ_B2_HT,A3,,0.00,NormalizedDNA,A1" := by
  constructor
  · norm_num [format_pooling_echo_pick_list, echoLines, echoStep, wellEntries,
      destName, rowChar, MFloat.fmt2, fmt2abs, roundHalfEven, natPad2,
      MFloat.ltb, MFloat.add, List.enum, List.enumFrom]
    decide
  · decide

/-- Claim C4: on the one-row volume matrix [10,10,5,5,10,10] with
max_vol_per_well = 26 and dest_plate_shape = [16,24] the picklist assigns
destination wells [A1,A1,A1,A2,A2,A2]: iterating wells in row-major order, a
rollover to a new destination index happens exactly when
running_total + this_well_volume > max_vol_per_well (resetting running_total
to this well's volume), otherwise the volume is accumulated. -/
theorem claim_C4 :
    format_pooling_echo_pick_list
      [[MFloat.fin 10, MFloat.fin 10, MFloat.fin 5, MFloat.fin 5, MFloat.fin 10,
        MFloat.fin 10]] (MFloat.fin 26) (16, 24)
    = "Source Plate Name,Source Plate Type,Source Well,Concentration,Transfer Volume,Destination Plate Name,Destination Well\n1,384LDV_AQ_B2_HT,A1,,10.00,NormalizedDNA,A1\n1,384LDV_AQ_B2_HT,A2,,10.00,NormalizedDNA,A1\n1,384LDV_AQ_B2_HT,A3,,5.00,NormalizedDNA,A1\n1,384LDV_AQ_B2_HT,A4,,5.00,NormalizedDNA,A2\n1,384LDV_AQ_B2_HT,A5,,10.00,NormalizedDNA,A2\n1,384LDV_AQ_B2_HT,A6,,10.00,NormalizedDNA,A2" := by
  norm_num [format_pooling_echo_pick_list, echoLines, echoStep, wellEntries,
    destName, rowChar, MFloat.fmt2, fmt2abs, roundHalfEven, natPad2,
    MFloat.ltb, MFloat.add, List.enum, List.enumFrom]
  decide

/-- Claim C9 counterexample: `compute_shotgun_pooling_values_eqvol` on a
single-well matrix with target volume V = 60 returns 60000 (the µL→nL
conversion multiplies V/N by 1000), not V/N = 60 as the claim states. -/
theorem claim_C9_counterexample :
    compute_shotgun_pooling_values_eqvol [[MFloat.fin 400]] (MFloat.fin 60)
      = [[MFloat.fin 60000]]
    ∧ MFloat.fin 60000 ≠ MFloat.fin 60 := by
  constructor
  · norm_num [compute_shotgun_pooling_values_eqvol, mmap, msize, MFloat.div,
      MFloat.mul, MFloat.add]
  · simp only [ne_eq, MFloat.fin.injEq]
    norm_num

/-- Claim C9 (amended): for every volume matrix and every finite target
volume V, every entry of `compute_shotgun_pooling_values_eqvol` equals
V / N × 1000 (V in µL divided by the well count and converted to nL), a
value depending only on the matrix's shape and V, never on any
concentration value (including NaN entries). -/
theorem claim_C9_amended (m : Mat) (v : ℚ) :
    compute_shotgun_pooling_values_eqvol m (MFloat.fin v)
      = mmap (fun _ => MFloat.fin (v / (msize m : ℚ) * 1000)) m := by
  show mmap (fun _ => MFloat.add (MFloat.fin 0)
      (MFloat.mul (MFloat.div (MFloat.fin v) (MFloat.fin (msize m : ℚ)))
        (MFloat.fin 1000))) m
    = mmap (fun _ => MFloat.fin (v / (msize m : ℚ) * 1000)) m
  unfold mmap
  apply mapmap_congr
  intro x hx
  by_cases h : msize m = 0
  · exfalso
    have hlen : m.flatten.length = 0 := by
      rw [List.length_flatten]
      exact h
    rw [List.length_eq_zero.mp hlen] at hx
    simp at hx
  · have hQ : ((msize m : ℚ)) ≠ 0 := Nat.cast_ne_zero.mpr h
    rw [div_fin _ hQ, mul_fin, add_fin, zero_add]

/-- Claim C10: the destination label is built from the destination index d
(starting at 1, incremented on each rollover) as
chr(ord('A') + d / dest_plate_shape[0]) followed by d % dest_plate_shape[1];
driving d up to 24 (here: 23 wells of volume 30 nL with max_vol_per_well 26,
so every well rolls over) makes the code emit the destination label "B0",
whose column number 0 is not among the valid column numbers 1..24. -/
theorem claim_C10 :
    format_pooling_echo_pick_list
      [[MFloat.fin 30, MFloat.fin 30, MFloat.fin 30, MFloat.fin 30, MFloat.fin 30, MFloat.fin 30, MFloat.fin 30, MFloat.fin 30, MFloat.fin 30, MFloat.fin 30, MFloat.fin 30, MFloat.fin 30, MFloat.fin 30, MFloat.fin 30, MFloat.fin 30, MFloat.fin 30, MFloat.fin 30, MFloat.fin 30, MFloat.fin 30, MFloat.fin 30, MFloat.fin 30, MFloat.fin 30, MFloat.fin 30]]
      (MFloat.fin 26) (16, 24)
    = String.intercalate "\n"
        ["Source Plate Name,Source Plate Type,Source Well,Concentration,Transfer Volume,Destination Plate Name,Destination Well",
        "1,384LDV_AQ_B2_HT,A1,,30.00,NormalizedDNA,A2",
        "1,384LDV_AQ_B2_HT,A2,,30.00,NormalizedDNA,A3",
        "1,384LDV_AQ_B2_HT,A3,,30.00,NormalizedDNA,A4",
        "1,384LDV_AQ_B2_HT,A4,,30.00,NormalizedDNA,A5",
        "1,384LDV_AQ_B2_HT,A5,,30.00,NormalizedDNA,A6",
        "1,384LDV_AQ_B2_HT,A6,,30.00,NormalizedDNA,A7",
        "1,384LDV_AQ_B2_HT,A7,,30.00,NormalizedDNA,A8",
        "1,384LDV_AQ_B2_HT,A8,,30.00,NormalizedDNA,A9",
        "1,384LDV_AQ_B2_HT,A9,,30.00,NormalizedDNA,A10",
        "1,384LDV_AQ_B2_HT,A10,,30.00,NormalizedDNA,A11",
        "1,384LDV_AQ_B2_HT,A11,,30.00,NormalizedDNA,A12",
        "1,384LDV_AQ_B2_HT,A12,,30.00,NormalizedDNA,A13",
        "1,384LDV_AQ_B2_HT,A13,,30.00,NormalizedDNA,A14",
        "1,384LDV_AQ_B2_HT,A14,,30.00,NormalizedDNA,A15",
        "1,384LDV_AQ_B2_HT,A15,,30.00,NormalizedDNA,B16",
        "1,384LDV_AQ_B2_HT,A16,,30.00,NormalizedDNA,B17",
        "1,384LDV_AQ_B2_HT,A17,,30.00,NormalizedDNA,B18",
        "1,384LDV_AQ_B2_HT,A18,,30.00,NormalizedDNA,B19",
        "1,384LDV_AQ_B2_HT,A19,,30.00,NormalizedDNA,B20",
        "1,384LDV_AQ_B2_HT,A20,,30.00,NormalizedDNA,B21",
        "1,384LDV_AQ_B2_HT,A21,,30.00,NormalizedDNA,B22",
        "1,384LDV_AQ_B2_HT,A22,,30.00,NormalizedDNA,B23",
        "1,384LDV_AQ_B2_HT,A23,,30.00,NormalizedDNA,B0"]
    ∧ ("B0" : String) ∉ (List.range 24).map (fun k => "B" ++ toString (k + 1)) := by
  have hfmt : MFloat.fmt2 (MFloat.fin 30) = "30.00" := by
    norm_num [MFloat.fmt2, fmt2abs, roundHalfEven, natPad2]
    decide
  have hstep : ∀ d : Nat, echoStep (MFloat.fin 26)
      (EchoState.mk (MFloat.fin 30) d) (MFloat.fin 30)
      = EchoState.mk (MFloat.fin 30) (d + 1) := by
    intro d
    unfold echoStep
    rw [add_fin]
    rw [if_pos]
    simp only [MFloat.ltb]
    norm_num
  have hstep0 : echoStep (MFloat.fin 26)
      (EchoState.mk (MFloat.fin 0) 1) (MFloat.fin 30)
      = EchoState.mk (MFloat.fin 30) 2 := by
    unfold echoStep
    rw [add_fin]
    rw [if_pos]
    simp only [MFloat.ltb]
    norm_num
  constructor
  · simp only [format_pooling_echo_pick_list, wellEntries, List.enum,
      List.enumFrom, List.map, List.flatten, List.cons_append,
      List.nil_append, List.append_nil, rowChar, echoLines, hstep0, hstep,
      hfmt, destName]
    congr 1
  · decide

/-- Claim C3 counterexample: when every well fails the threshold (one well at
concentration 5 with min_conc = 10), `compute_shotgun_pooling_values_qpcr`
returns the all-NaN matrix, not the all-zero matrix as claimed: the
renormalization computes 1/0 = +inf and 0 × inf = NaN. -/
theorem claim_C3_counterexample :
    compute_shotgun_pooling_values_qpcr [[MFloat.fin 5]] none
      (MFloat.fin 10) (MFloat.fin 50) (MFloat.fin (1 / 100))
    = [[MFloat.nan]]
    ∧ compute_shotgun_pooling_values_qpcr [[MFloat.fin 5]] none
      (MFloat.fin 10) (MFloat.fin 50) (MFloat.fin (1 / 100))
    ≠ [[MFloat.fin 0]] := by
  have h : compute_shotgun_pooling_values_qpcr [[MFloat.fin 5]] none
      (MFloat.fin 10) (MFloat.fin 50) (MFloat.fin (1 / 100))
      = [[MFloat.nan]] := by
    norm_num [compute_shotgun_pooling_values_qpcr, defaultFracs, passFracs,
      floorConcs, mmap, mzip, msum, msize, MFloat.add, MFloat.mul, MFloat.div,
      MFloat.leb, MFloat.ltb]
  refine ⟨h, ?_⟩
  rw [h]
  decide

/-- Claim C3 (amended): if every well's concentration is at most min_conc,
`compute_shotgun_pooling_values_qpcr` (with default fractions) does not raise
a division-by-zero error — the passing fractions sum to 0, the
renormalization produces 1/0 = +inf and 0 × inf = NaN — and the returned
matrix is all-NaN, not all-zero. -/
theorem claim_C3_amended (X : List (List ℚ)) (mc : ℚ) (fc t : MFloat)
    (hall : ∀ c ∈ X.flatten, c ≤ mc) :
    msum (passFracs (finM X) (defaultFracs (finM X)) (MFloat.fin mc))
      = MFloat.fin 0
    ∧ ∀ x ∈ (compute_shotgun_pooling_values_qpcr (finM X) none
        (MFloat.fin mc) fc t).flatten, x = MFloat.nan := by
  have epass : passFracs (finM X) (defaultFracs (finM X)) (MFloat.fin mc)
      = X.map (List.map (fun _ : ℚ => MFloat.fin 0)) := by
    unfold passFracs defaultFracs
    show mzip _ (X.map (List.map MFloat.fin))
        (mmap _ (X.map (List.map MFloat.fin))) = _
    rw [mmap_mapmap, mzip_mapmap]
    apply mapmap_congr
    intro c hc
    have hle : MFloat.leb (MFloat.fin c) (MFloat.fin mc) = true := by
      simp only [MFloat.leb, decide_eq_true_eq]
      exact hall c hc
    rw [if_pos hle]
  have esum : msum (passFracs (finM X) (defaultFracs (finM X)) (MFloat.fin mc))
      = MFloat.fin 0 := by
    rw [epass, ← finM_mapmap, msum_finM, flatten_mapmap, sum_map_zero]
  refine ⟨esum, ?_⟩
  have hdiv : MFloat.div (MFloat.fin 1) (MFloat.fin 0) = MFloat.pinf := by
    simp [MFloat.div]
  have hmulz : MFloat.mul (MFloat.fin 0) MFloat.pinf = MFloat.nan := by
    simp [MFloat.mul]
  show ∀ x ∈ (mmap (fun v => MFloat.mul v (MFloat.fin (10 ^ 9)))
      (mzip (fun f c => MFloat.div (MFloat.mul t f) c)
        (mmap (fun f => MFloat.mul f (MFloat.div (MFloat.fin 1)
            (msum (passFracs (finM X) (defaultFracs (finM X)) (MFloat.fin mc)))))
          (passFracs (finM X) (defaultFracs (finM X)) (MFloat.fin mc)))
        (floorConcs (finM X) fc))).flatten, x = MFloat.nan
  rw [esum]
  simp only [hdiv]
  rw [epass]
  have enorm : mmap (fun f => MFloat.mul f MFloat.pinf)
      (X.map (List.map (fun _ : ℚ => MFloat.fin 0)))
      = X.map (List.map (fun _ : ℚ => MFloat.nan)) := by
    rw [mmap_mapmap]
    apply mapmap_congr
    intro c _
    exact hmulz
  rw [enorm]
  have efloor : floorConcs (finM X) fc
      = X.map (List.map (fun c =>
          if MFloat.ltb (MFloat.fin c) fc then fc else MFloat.fin c)) := by
    unfold floorConcs
    show mmap _ (X.map (List.map MFloat.fin)) = _
    rw [mmap_mapmap]
  rw [efloor]
  have evols : mzip (fun f c => MFloat.div (MFloat.mul t f) c)
      (X.map (List.map (fun _ : ℚ => MFloat.nan)))
      (X.map (List.map (fun c =>
        if MFloat.ltb (MFloat.fin c) fc then fc else MFloat.fin c)))
      = X.map (List.map (fun _ : ℚ => MFloat.nan)) := by
    rw [mzip_mapmap]
    apply mapmap_congr
    intro c _
    rw [mul_nan_right, div_nan_left]
  rw [evols]
  have efin : mmap (fun v => MFloat.mul v (MFloat.fin (10 ^ 9)))
      (X.map (List.map (fun _ : ℚ => MFloat.nan)))
      = X.map (List.map (fun _ : ℚ => MFloat.nan)) := by
    rw [mmap_mapmap]
    apply mapmap_congr
    intro c _
    rw [mul_nan_left]
  rw [efin]
  intro x hx
  rw [flatten_mapmap] at hx
  obtain ⟨c, _, h⟩ := List.mem_map.mp hx
  exact h.symm

/-- Claim C3 witness: the amended claim instantiated at the one-well matrix
[[5]] with the default parameters. -/
theorem claim_C3_witness :
    (∀ c ∈ ([[(5 : ℚ)]] : List (List ℚ)).flatten, c ≤ 10)
    ∧ (msum (passFracs (finM [[(5 : ℚ)]]) (defaultFracs (finM [[(5 : ℚ)]]))
        (MFloat.fin 10)) = MFloat.fin 0
      ∧ ∀ x ∈ (compute_shotgun_pooling_values_qpcr (finM [[(5 : ℚ)]]) none
          (MFloat.fin 10) (MFloat.fin 50) (MFloat.fin (1 / 100))).flatten,
          x = MFloat.nan) :=
  ⟨by
    intro c hc
    simp only [List.flatten, List.cons_append, List.nil_append,
      List.mem_singleton] at hc
    rw [hc]
    norm_num,
   claim_C3_amended [[(5 : ℚ)]] 10 (MFloat.fin 50) (MFloat.fin (1 / 100))
    (by
      intro c hc
      simp only [List.flatten, List.cons_append, List.nil_append,
        List.mem_singleton] at hc
      rw [hc]
      norm_num)⟩

/-- Claim C5: `estimate_pool_conc_vol` returns pool_volume = Σ volumes and
pool_concentration = Σ(volume_i × conc_i) / Σ volumes — the volume-weighted
average concentration, the nanoliter scalars cancelling exactly — and
consequently pooling N wells all at concentration K with equal positive
volumes v yields pool concentration K, independent of N. -/
theorem claim_C5 (vq cq : List (List ℚ)) (hv : qtot vq ≠ 0) :
    estimate_pool_conc_vol (finM vq) (finM cq)
      = (MFloat.fin (qdot cq vq / qtot vq), MFloat.fin (qtot vq))
    ∧ ∀ (N : Nat) (K v : ℚ), N ≠ 0 → 0 < v →
        estimate_pool_conc_vol (finM [List.replicate N v])
            (finM [List.replicate N K])
          = (MFloat.fin K, MFloat.fin ((N : ℚ) * v)) := by
  constructor
  · exact estimate_finM vq cq hv
  · intro N K v hN hv0
    have hsum : ([List.replicate N v] : List (List ℚ)).flatten.sum
        = (N : ℚ) * v := by
      simp [List.sum_replicate, nsmul_eq_mul]
    have hNQ : ((N : ℚ)) ≠ 0 := Nat.cast_ne_zero.mpr hN
    have hne : ([List.replicate N v] : List (List ℚ)).flatten.sum ≠ 0 := by
      rw [hsum]
      exact mul_ne_zero hNQ hv0.ne'
    rw [estimate_finM [List.replicate N v] [List.replicate N K] hne]
    have hrep : List.zipWith (fun a b => a * b)
        (List.replicate N K) (List.replicate N v) = List.replicate N (K * v) := by
      induction N with
      | zero => rfl
      | succ n ih => simp [List.replicate_succ, ih]
    have hdot : qdot [List.replicate N K] [List.replicate N v]
        = (N : ℚ) * (K * v) := by
      unfold qdot
      simp [hrep, List.sum_replicate, nsmul_eq_mul]
    have hq : qtot [List.replicate N v] = (N : ℚ) * v := by
      unfold qtot
      exact hsum
    rw [hdot, hq]
    have hKv : ((N : ℚ) * (K * v)) / ((N : ℚ) * v) = K := by
      field_simp
      ring
    rw [hKv]

/-- Claim C5 witness: the formula instantiated at volumes [[2,2]] and
concentrations [[5,7]] (pool volume 4 nL, weighted concentration 6 nM), and
the constant-concentration case with N = 2 wells at K = 9 and volume 3. -/
theorem claim_C5_witness :
    qtot [[(2 : ℚ), 2]] ≠ 0
    ∧ estimate_pool_conc_vol (finM [[(2 : ℚ), 2]]) (finM [[(5 : ℚ), 7]])
        = (MFloat.fin 6, MFloat.fin 4)
    ∧ estimate_pool_conc_vol (finM [List.replicate 2 (3 : ℚ)])
        (finM [List.replicate 2 (9 : ℚ)])
        = (MFloat.fin 9, MFloat.fin 6) := by
  have h0 : qtot [[(2 : ℚ), 2]] ≠ 0 := by
    norm_num [qtot]
  have h := claim_C5 [[(2 : ℚ), 2]] [[(5 : ℚ), 7]] h0
  refine ⟨h0, ?_, ?_⟩
  · rw [h.1]
    norm_num [qdot, qtot]
  · have h2 := h.2 2 9 3 (by norm_num) (by norm_num)
    rw [h2]
    norm_num

/-- Claim C6 counterexample: on the C1 matrix with default parameters the
conserved quantity Σ(volume_i × floor_adjusted_conc_i) converted from
nanoliters equals total_nmol = 0.01 itself, not
total_nmol × (fraction of samples passing) = 0.01 × 4/6 as the claim states
(the renormalization makes the passing fractions sum to 1). -/
theorem claim_C6_counterexample :
    MFloat.mul
      (msum (mzip MFloat.mul
        (compute_shotgun_pooling_values_qpcr
          [[MFloat.fin 1, MFloat.fin 12, MFloat.fin 400],
           [MFloat.fin 200, MFloat.fin 40, MFloat.fin 1]]
          none (MFloat.fin 10) (MFloat.fin 50) (MFloat.fin (1 / 100)))
        (floorConcs
          [[MFloat.fin 1, MFloat.fin 12, MFloat.fin 400],
           [MFloat.fin 200, MFloat.fin 40, MFloat.fin 1]]
          (MFloat.fin 50))))
      (MFloat.fin (1 / 10 ^ 9))
    = MFloat.fin (1 / 100)
    ∧ MFloat.fin (1 / 100) ≠ MFloat.fin ((1 / 100) * (4 / 6)) := by
  constructor
  · norm_num [compute_shotgun_pooling_values_qpcr, defaultFracs, passFracs,
      floorConcs, mmap, mzip, msum, msize, MFloat.add, MFloat.mul, MFloat.div,
      MFloat.leb, MFloat.ltb]
  · simp only [ne_eq, MFloat.fin.injEq]
    norm_num

/-- Claim C6 (amended): for every finite-valued concentration matrix with at
least one well strictly above min_conc, default uniform fractions and any
floor_conc > 0, the volumes returned by `compute_shotgun_pooling_values_qpcr`
satisfy Σ(volume_i × floor_adjusted_conc_i) × 10⁻⁹ = total_nmol exactly —
the full target quantity, independent of how many wells pass, because the
excluded fractions are renormalized so that the passing fractions sum to 1. -/
theorem claim_C6_amended (X : List (List ℚ)) (mc fc t : ℚ) (hfc : 0 < fc)
    (hpass : ∃ c ∈ X.flatten, mc < c) :
    MFloat.mul
      (msum (mzip MFloat.mul
        (compute_shotgun_pooling_values_qpcr (finM X) none
          (MFloat.fin mc) (MFloat.fin fc) (MFloat.fin t))
        (floorConcs (finM X) (MFloat.fin fc))))
      (MFloat.fin (1 / 10 ^ 9))
    = MFloat.fin t := by
  have hs : 0 < psum X mc := psum_pos hpass
  rw [computeQ_eq X mc fc t hfc hpass, floorConcs_finM, finM_mapmap,
    mzip_mapmap]
  have h1 : X.map (List.map (fun c =>
      MFloat.mul (MFloat.fin (volQ X mc fc t c)) (MFloat.fin (floorQ fc c))))
      = X.map (List.map (fun c =>
          MFloat.fin (volQ X mc fc t c * floorQ fc c))) :=
    mapmap_congr (fun c _ => mul_fin _ _)
  rw [h1, ← finM_mapmap, msum_finM, flatten_mapmap, mul_fin]
  congr 1
  have h2 : X.flatten.map (fun c => volQ X mc fc t c * floorQ fc c)
      = X.flatten.map (fun c => (t * 10 ^ 9 / psum X mc)
          * passQ mc (1 / (X.flatten.length : ℚ)) c) := by
    apply map_congr_mem
    intro c _
    have hf : floorQ fc c ≠ 0 := (floorQ_pos hfc c).ne'
    unfold volQ
    field_simp
    ring
  rw [h2, sum_map_mul_left']
  have h3 : (X.flatten.map (passQ mc (1 / (X.flatten.length : ℚ)))).sum
      = psum X mc := rfl
  rw [h3]
  field_simp

/-- Claim C6 witness: the amended conservation law instantiated at the C1
matrix with the default parameters. -/
theorem claim_C6_witness :
    (0 : ℚ) < 50
    ∧ MFloat.mul
        (msum (mzip MFloat.mul
          (compute_shotgun_pooling_values_qpcr
            (finM [[1, 12, 400], [200, 40, 1]]) none
            (MFloat.fin 10) (MFloat.fin 50) (MFloat.fin (1 / 100)))
          (floorConcs (finM [[1, 12, 400], [200, 40, 1]]) (MFloat.fin 50))))
        (MFloat.fin (1 / 10 ^ 9))
      = MFloat.fin (1 / 100) :=
  ⟨by norm_num,
   claim_C6_amended [[1, 12, 400], [200, 40, 1]] 10 50 (1 / 100) (by norm_num)
    ⟨400, List.mem_cons_of_mem _ (List.mem_cons_of_mem _
      (List.mem_cons_self _ _)), by norm_num⟩⟩

/-- Claim C7 counterexample: a NaN input concentration does not propagate to
a zero output volume: on [[NaN, 400]] with default parameters the NaN well
passes the (always-false) threshold comparison, keeps its NaN floor value and
produces an output volume of NaN — so the output matrix contains NaN. -/
theorem claim_C7_counterexample :
    compute_shotgun_pooling_values_qpcr [[MFloat.nan, MFloat.fin 400]] none
      (MFloat.fin 10) (MFloat.fin 50) (MFloat.fin (1 / 100))
    = [[MFloat.nan, MFloat.fin 12500]]
    ∧ MFloat.nan ∈ (compute_shotgun_pooling_values_qpcr
        [[MFloat.nan, MFloat.fin 400]] none
        (MFloat.fin 10) (MFloat.fin 50) (MFloat.fin (1 / 100))).flatten := by
  have h : compute_shotgun_pooling_values_qpcr [[MFloat.nan, MFloat.fin 400]]
      none (MFloat.fin 10) (MFloat.fin 50) (MFloat.fin (1 / 100))
      = [[MFloat.nan, MFloat.fin 12500]] := by
    norm_num [compute_shotgun_pooling_values_qpcr, defaultFracs, passFracs,
      floorConcs, mmap, mzip, msum, msize, MFloat.add, MFloat.mul, MFloat.div,
      MFloat.leb, MFloat.ltb]
  refine ⟨h, ?_⟩
  rw [h]
  simp

/-- Claim C7 (amended): for every concentration matrix whose entries are all
finite, with at least one entry strictly above min_conc, default uniform
fractions, floor_conc > 0 and total_nmol ≥ 0, the returned volume matrix
contains no NaN and every entry is a nonnegative finite value; a NaN input
concentration instead propagates to a NaN output entry (see the
counterexample), not to zero. -/
theorem claim_C7_amended (X : List (List ℚ)) (mc fc t : ℚ) (hfc : 0 < fc)
    (ht : 0 ≤ t) (hpass : ∃ c ∈ X.flatten, mc < c) :
    ∀ x ∈ (compute_shotgun_pooling_values_qpcr (finM X) none
        (MFloat.fin mc) (MFloat.fin fc) (MFloat.fin t)).flatten,
      ∃ q : ℚ, x = MFloat.fin q ∧ 0 ≤ q := by
  rw [computeQ_eq X mc fc t hfc hpass]
  intro x hx
  unfold finM at hx
  rw [flatten_mapmap, flatten_mapmap, List.map_map] at hx
  obtain ⟨c, _, heq⟩ := List.mem_map.mp hx
  refine ⟨volQ X mc fc t c, ?_, ?_⟩
  · exact heq.symm
  · have hs : 0 < psum X mc := psum_pos hpass
    have hwnn : (0 : ℚ) ≤ 1 / (X.flatten.length : ℚ) := by positivity
    have h1 : 0 ≤ passQ mc (1 / (X.flatten.length : ℚ)) c :=
      passQ_nonneg hwnn c
    have h2 : 0 < floorQ fc c := floorQ_pos hfc c
    unfold volQ
    apply mul_nonneg _ (by norm_num : (0 : ℚ) ≤ 10 ^ 9)
    apply div_nonneg _ h2.le
    exact mul_nonneg ht (mul_nonneg h1 (one_div_nonneg.mpr hs.le))

/-- Claim C7 witness: the amended invariant instantiated at the finite
matrix [[1, 400]] with the default parameters. -/
theorem claim_C7_witness :
    (0 : ℚ) < 50 ∧ (0 : ℚ) ≤ 1 / 100
    ∧ ∀ x ∈ (compute_shotgun_pooling_values_qpcr (finM [[1, 400]]) none
        (MFloat.fin 10) (MFloat.fin 50) (MFloat.fin (1 / 100))).flatten,
        ∃ q : ℚ, x = MFloat.fin q ∧ 0 ≤ q :=
  ⟨by norm_num, by norm_num,
   claim_C7_amended [[1, 400]] 10 50 (1 / 100) (by norm_num) (by norm_num)
    ⟨400, List.mem_cons_of_mem _ (List.mem_cons_self _ _), by norm_num⟩⟩

/-- Claim C8: when the pool volume Σ sample_vols is 0 (all volumes zero,
volumes being nonnegative per the data model), `estimate_pool_conc_vol` does
not crash: the returned pool volume is 0 and the returned pool concentration
is the NaN sentinel (0 pmol divided by 0 L), for any concentration matrix —
including concentrations that are themselves NaN. -/
theorem claim_C8 (vq : List (List ℚ)) (concs : Mat)
    (hnn : ∀ v ∈ vq.flatten, 0 ≤ v) (hsum : vq.flatten.sum = 0) :
    estimate_pool_conc_vol (finM vq) concs = (MFloat.nan, MFloat.fin 0) := by
  have hzero : ∀ v ∈ vq.flatten, v = 0 := fun v hv =>
    List.all_zero_of_le_zero_le_of_sum_eq_zero hnn hsum hv
  have htv : msum (finM vq) = MFloat.fin 0 := by
    rw [msum_finM, hsum]
  have hfin0 : ∀ x ∈ (finM vq).flatten, x = MFloat.fin 0 := by
    intro x hx
    unfold finM at hx
    rw [flatten_mapmap] at hx
    obtain ⟨v, hv, h⟩ := List.mem_map.mp hx
    rw [← h, hzero v hv]
  have hprod : ∀ x ∈ (mzip MFloat.mul concs (finM vq)).flatten,
      x = MFloat.fin 0 ∨ x = MFloat.nan := by
    intro x hx
    obtain ⟨c, _, v, hv, hx⟩ := mem_mzip_flatten hx
    rw [hfin0 v hv] at hx
    subst hx
    cases c with
    | nan => right; rfl
    | pinf =>
      right
      simp [MFloat.mul]
    | ninf =>
      right
      simp [MFloat.mul]
    | fin q =>
      left
      rw [mul_fin]
      norm_num
  have hscaled : ∀ x ∈ (mmap (fun y => MFloat.mul y (MFloat.fin (1 / 10 ^ 9)))
      (mzip MFloat.mul concs (finM vq))).flatten,
      x = MFloat.fin 0 ∨ x = MFloat.nan := by
    intro x hx
    obtain ⟨y, hy, hx⟩ := mem_mmap_flatten hx
    subst hx
    rcases hprod y hy with rfl | rfl
    · left
      rw [mul_fin]
      norm_num
    · right
      rw [mul_nan_left]
  have hnum : msum (mmap (fun y => MFloat.mul y (MFloat.fin (1 / 10 ^ 9)))
        (mzip MFloat.mul concs (finM vq))) = MFloat.fin 0
      ∨ msum (mmap (fun y => MFloat.mul y (MFloat.fin (1 / 10 ^ 9)))
        (mzip MFloat.mul concs (finM vq))) = MFloat.nan :=
    foldl_add_zn _ hscaled _ (Or.inl rfl)
  have hden : MFloat.mul (MFloat.fin 0) (MFloat.fin (1 / 10 ^ 9))
      = MFloat.fin 0 := by
    rw [mul_fin]
    norm_num
  show (MFloat.div
      (msum (mmap (fun y => MFloat.mul y (MFloat.fin (1 / 10 ^ 9)))
        (mzip MFloat.mul concs (finM vq))))
      (MFloat.mul (msum (finM vq)) (MFloat.fin (1 / 10 ^ 9))),
      msum (finM vq)) = (MFloat.nan, MFloat.fin 0)
  rw [htv, hden]
  rcases hnum with h | h <;> rw [h]
  · have : MFloat.div (MFloat.fin 0) (MFloat.fin 0) = MFloat.nan := by
      simp [MFloat.div]
    rw [this]
  · rw [div_nan_left]

/-- Claim C8 witness: two zero-volume wells, one with a NaN concentration:
the pool estimate is (NaN, 0). -/
theorem claim_C8_witness :
    (∀ v ∈ ([[(0 : ℚ), 0]] : List (List ℚ)).flatten, 0 ≤ v)
    ∧ estimate_pool_conc_vol (finM [[(0 : ℚ), 0]])
        [[MFloat.fin 5, MFloat.nan]] = (MFloat.nan, MFloat.fin 0) :=
  ⟨by
    intro v hv
    simp only [List.flatten, List.cons_append, List.nil_append,
      List.mem_cons, List.mem_singleton] at hv
    rcases hv with rfl | hv
    · norm_num
    · rcases hv with rfl | hv
      · norm_num
      · simp at hv,
   claim_C8 [[(0 : ℚ), 0]] [[MFloat.fin 5, MFloat.nan]]
    (by
      intro v hv
      simp only [List.flatten, List.cons_append, List.nil_append,
        List.mem_cons, List.mem_singleton] at hv
      rcases hv with rfl | hv
      · norm_num
      · rcases hv with rfl | hv
        · norm_num
        · simp at hv)
    (by
      simp only [List.flatten, List.cons_append, List.nil_append]
      norm_num)⟩
